import Mathlib

/-!
Verification of the UAH archive chatbot search core.

Shallow embedding of the Python source under src/chatbot/ :
  * api_chatbot.py            (normalize_query)
  * services/search_strategies.py
  * services/conversation.py

Text is modelled as Lean String (a list of characters); Python floats are
modelled as rationals; Python dicts that are used in insertion order are
modelled as association lists; Python sets of strings are modelled as
Finset String.  External capabilities (embedding function, cosine
similarity from sklearn) are modelled as injected functions, exactly as
the source injects them.
-/

set_option maxRecDepth 8192

namespace UAH

/-! ## Character level utilities modelling the Python string primitives -/

/-- Whitespace test, modelling the Python space classes used by strip and
split for the character repertoire of this code base. -/
def isWs (c : Char) : Bool :=
  c = ' ' || c = '\t' || c = '\n' || c = '\r'

/-- Model of the Python lower method, covering ASCII plus the accented
uppercase characters of the Spanish repertoire used by this repository. -/
def pyLowerChar (c : Char) : Char :=
  if 'A' ≤ c && c ≤ 'Z' then Char.ofNat (c.toNat + 32)
  else if c = 'Á' then 'á'
  else if c = 'É' then 'é'
  else if c = 'Í' then 'í'
  else if c = 'Ó' then 'ó'
  else if c = 'Ú' then 'ú'
  else if c = 'Ñ' then 'ñ'
  else if c = 'Ü' then 'ü'
  else c

/-- Model of NFD decomposition followed by dropping combining marks, for
the lowercase Spanish repertoire (normalize_query lowercases first). -/
def nfdStripChar (c : Char) : Char :=
  if c = 'á' then 'a'
  else if c = 'é' then 'e'
  else if c = 'í' then 'i'
  else if c = 'ó' then 'o'
  else if c = 'ú' then 'u'
  else if c = 'ñ' then 'n'
  else if c = 'ü' then 'u'
  else c

/-- Python strip on a character list: drop leading and trailing whitespace. -/
def stripChars (l : List Char) : List Char :=
  ((l.dropWhile (isWs ·)).reverse.dropWhile (isWs ·)).reverse

/-- Helper for splitWs: current word accumulator is kept reversed. -/
def splitWsAux : List Char → List Char → List (List Char)
  | [], [] => []
  | [], acc => [acc.reverse]
  | c :: cs, acc =>
    if isWs c then
      if acc = [] then splitWsAux cs []
      else acc.reverse :: splitWsAux cs []
    else splitWsAux cs (c :: acc)

/-- Python str.split() with no argument: split on whitespace runs,
discarding empty pieces. -/
def splitWs (l : List Char) : List (List Char) :=
  splitWsAux l []

/-- Join a list of words with single spaces (Python " ".join). -/
def joinSpace (ws : List (List Char)) : List Char :=
  List.intercalate [' '] ws

/-- Fuel based replacement of every non overlapping occurrence of pat,
left to right (Python str.replace).  All patterns used in the source are
non empty, so fuel equal to the length of the subject is enough. -/
def replaceFuel (pat rep : List Char) : Nat → List Char → List Char
  | _, [] => []
  | 0, s => s
  | fuel + 1, c :: cs =>
    if pat.isPrefixOf (c :: cs) then rep ++ replaceFuel pat rep fuel ((c :: cs).drop pat.length)
    else c :: replaceFuel pat rep fuel cs

/-- Python str.replace on character lists. -/
def replaceChars (pat rep s : List Char) : List Char :=
  replaceFuel pat rep s.length s

/-- Python substring membership test (the in operator on strings). -/
def containsChars (pat : List Char) : List Char → Bool
  | [] => pat.isPrefixOf []
  | c :: cs => pat.isPrefixOf (c :: cs) || containsChars pat cs

/-- Suffix test on character lists. -/
def endsWithChars (suf l : List Char) : Bool :=
  suf.reverse.isPrefixOf l.reverse

/-! ## normalize_query  (api_chatbot.py, lines 662-721) -/

/-- One word of the basic plural stemming step of normalize_query:
drop a trailing es when longer than 4, else a trailing s (not ss) when
longer than 3. -/
def stemWord (w : List Char) : List Char :=
  if endsWithChars ['e', 's'] w && decide (w.length > 4) then w.take (w.length - 2)
  else if endsWithChars ['s'] w && decide (w.length > 3) && !endsWithChars ['s', 's'] w then
    w.take (w.length - 1)
  else w

/-- The fixed ordered abbreviation and term table of normalize_query. -/
def termMapping : List (List Char × List Char) :=
  [("dicta".data, "dictadura militar".data),
   ("ddhh".data, "derechos humanos".data),
   ("dd.hh".data, "derechos humanos".data),
   ("dd hh".data, "derechos humanos".data),
   ("mir".data, "movimiento izquierda revolucionaria".data),
   ("pc".data, "partido comunista".data),
   ("ps".data, "partido socialista".data),
   ("pdc".data, "partido democrata cristiano".data),
   ("golpe".data, "golpe estado 1973".data),
   ("pinochet".data, "dictadura militar pinochet".data),
   ("allende".data, "salvador allende".data),
   ("aylwin".data, "patricio aylwin".data),
   ("73".data, "1973".data),
   ("74".data, "1974".data),
   ("75".data, "1975".data),
   ("76".data, "1976".data),
   ("80".data, "1980".data),
   ("90".data, "1990".data),
   ("fotos".data, "fotografias".data),
   ("imagenes".data, "fotografias".data),
   ("pics".data, "fotografias".data)]

/-- The term mapping loop of normalize_query: each table entry is applied
once, in table order, replacing every occurrence when present. -/
def applyTermMapping (s : List Char) : List Char :=
  termMapping.foldl
    (fun acc pr => if containsChars pr.1 acc then replaceChars pr.1 pr.2 acc else acc) s

/-- normalize_query from api_chatbot.py: lowercase and strip, drop
diacritics, basic plural stemming per word, then the abbreviation table.
The non string input branch of the source (return empty) is outside this
typed embedding. -/
def normalize_query (q : String) : String :=
  ⟨applyTermMapping (joinSpace
    ((splitWs ((stripChars (q.data.map pyLowerChar)).map nfdStripChar)).map stemWord))⟩

/-- The plain characters: lowercase ASCII letters, digits and space.  On
these both the lowercasing and the diacritic stripping act as identity. -/
def plainChars : List Char :=
  "abcdefghijklmnopqrstuvwxyz0123456789 ".data

/-- A character is plain when it is a lowercase ASCII letter, a digit or
a space. -/
def plainChar (c : Char) : Bool :=
  plainChars.contains c

/-! ## Data model (spec section 3; dict records of the source) -/

/-- A corpus document: the fields of the Python dicts that the search
core reads.  The href field is the unique identifier.  Documents in the
corpus carry a title key (the source also falls back to a dc:title key,
modelled by the dcTitle field). -/
structure Doc where
  title : String
  dcTitle : String := ""
  href : String
  subject : List String := []
  creator : List String := []
  coverage : List String := []
deriving DecidableEq

/-- A scored result: the document record copied by a strategy together
with the relevance score and bookkeeping fields that the strategies
attach (underscore fields of the source dicts). -/
structure SDoc where
  d : Doc
  relevance_score : ℚ
  matchType : String := ""
  strategy : String := ""
  strategiesUsed : List String := []
deriving DecidableEq

/-- Python lower on strings. -/
def pyLower (s : String) : String :=
  ⟨s.data.map pyLowerChar⟩

/-- Python strip on strings. -/
def pyStrip (s : String) : String :=
  ⟨stripChars s.data⟩

/-- The set built by the Python set(text.split()) idiom. -/
def wordSet (l : List Char) : Finset String :=
  ((splitWs l).map (fun w => (⟨w⟩ : String))).toFinset

/-- doc.get title with fallback to dc:title via the falsy or of the
source. -/
def docTitle (d : Doc) : String :=
  if d.title = "" then d.dcTitle else d.title

/-! ## Stable descending sort, modelling list.sort with reverse true -/

/-- Insert an element into a descending list, after all elements whose
key is greater than or equal (so equal keys keep original order). -/
def insertDesc {α : Type} (key : α → ℚ) (x : α) : List α → List α
  | [] => [x]
  | y :: ys => if key y ≤ key x then x :: y :: ys else y :: insertDesc key x ys

/-- Stable descending insertion sort by a rational key: the model of the
Python stable sort with a key function and reverse set. -/
def sortDesc {α : Type} (key : α → ℚ) : List α → List α
  | [] => []
  | x :: xs => insertDesc key x (sortDesc key xs)

/-! ## ExactTitleSearchStrategy  (search_strategies.py, lines 84-130) -/

/-- The per document score of ExactTitleSearchStrategy: 1.0 on equality
of the lowered stripped query with the lowered title, 0.9 when the query
is a substring of the title, 0.85 when the title is a substring of the
query, else 0.7 times the word overlap fraction when non empty. -/
def exactTitleScore (queryLower : String) (qWords : Finset String) (title : String) :
    Option (ℚ × String) :=
  let titleLower := pyLower title
  if queryLower = titleLower then some (1, "exact")
  else if containsChars queryLower.data titleLower.data then some (9/10, "contains")
  else if containsChars titleLower.data queryLower.data then some (17/20, "reverse_contains")
  else
    let overlap := (qWords ∩ wordSet titleLower.data).card
    if overlap > 0 then some ((overlap : ℚ) / (qWords.card : ℚ) * (7/10), "word_overlap")
    else none

/-- The loop body of ExactTitleSearchStrategy.search: skip documents
with an empty title, otherwise attach the score and match type. -/
def exactTitleScoreDoc (queryLower : String) (qWords : Finset String) (d : Doc) : Option SDoc :=
  if docTitle d = "" then none
  else
    match exactTitleScore queryLower qWords (docTitle d) with
    | some (s, mt) => some ⟨d, s, mt, "exact_title", []⟩
    | none => none

/-- ExactTitleSearchStrategy.search: score every document, sort by score
descending (stable) and keep the first top_k. -/
def exactTitleSearch (q : String) (docs : List Doc) (top_k : Nat) : List SDoc :=
  (sortDesc (fun r => r.relevance_score)
    (docs.filterMap
      (exactTitleScoreDoc (pyStrip (pyLower q)) (wordSet (pyStrip (pyLower q)).data)))).take top_k

/-- The document of the C1 counterexample. -/
def c1Doc : Doc :=
  { title := "foto", href := "/a" }

/-! ## TFIDFSearchStrategy  (search_strategies.py, lines 140-212) -/

/-- Python word character class (backslash w) for the repertoire of this
repository: ASCII alphanumerics, underscore and accented letters. -/
def isWordChar (c : Char) : Bool :=
  c.isAlphanum || c = '_' ||
    c = 'á' || c = 'é' || c = 'í' || c = 'ó' || c = 'ú' || c = 'ñ' || c = 'ü' ||
    c = 'Á' || c = 'É' || c = 'Í' || c = 'Ó' || c = 'Ú' || c = 'Ñ' || c = 'Ü'

/-- Helper: cut a character list into maximal runs of word characters. -/
def wordRunsAux : List Char → List Char → List (List Char)
  | [], [] => []
  | [], acc => [acc.reverse]
  | c :: cs, acc =>
    if isWordChar c then wordRunsAux cs (c :: acc)
    else if acc = [] then wordRunsAux cs []
    else acc.reverse :: wordRunsAux cs []

/-- The findall of word tokens of length at least 3 used all over the
source (regex word boundary, word char three or more times). -/
def findWords3 (l : List Char) : List (List Char) :=
  (wordRunsAux l []).filter (fun w => decide (3 ≤ w.length))

/-- Set of word tokens of length at least 3 of a character list. -/
def wordSet3 (l : List Char) : Finset String :=
  ((findWords3 l).map (fun w => (⟨w⟩ : String))).toFinset

/-- Python " ".join on a list of strings. -/
def joinSpaceStr (xs : List String) : String :=
  ⟨joinSpace (xs.map (fun s => s.data))⟩

/-- Title plus joined subjects: the text scored by the TFIDF keyword
fallback. -/
def fallbackText (d : Doc) : String :=
  d.title ++ " " ++ joinSpaceStr d.subject

/-- One document of the TFIDF keyword fallback: word overlap of the
query tokens with the title and subject tokens, normalized by the query
token count, kept only when positive. -/
def keywordFallbackScore (qw : Finset String) (d : Doc) : Option SDoc :=
  if (qw ∩ wordSet3 (pyLower (fallbackText d)).data).card > 0 then
    some ⟨d, ((qw ∩ wordSet3 (pyLower (fallbackText d)).data).card : ℚ) / (qw.card : ℚ),
      "", "keyword_fallback", []⟩
  else none

/-- The TFIDF path with a fitted index.  The sklearn vectorizer and
matrix are external, injected capabilities; their composition is
modelled by a function giving the cosine similarity of the query against
every document position.  The source takes the top_k positions of the
descending argsort and keeps those with similarity above 0.01 (numpy
leaves the order of ties unspecified; the stable descending order is one
refinement of it).  This is one kept cell of that loop. -/
def tfidfCell (docs : List Doc) (p : Nat × ℚ) : Option SDoc :=
  if p.2 > 1/100 then (docs.get? p.1).map (fun d => ⟨d, p.2, "", "tfidf", []⟩) else none

/-- The body of the index path: positions in descending similarity
order, truncated, kept above the threshold. -/
def tfidfIndexSearch (sims : List ℚ) (docs : List Doc) (top_k : Nat) : List SDoc :=
  ((sortDesc (fun p : Nat × ℚ => p.2) sims.enum).take top_k).filterMap (tfidfCell docs)

/-- TFIDFSearchStrategy.search: the index path when an index was
injected, else the keyword fallback. -/
def tfidfSearch (index : Option (String → List ℚ)) (q : String) (docs : List Doc)
    (top_k : Nat) : List SDoc :=
  match index with
  | some sims => tfidfIndexSearch (sims q) docs top_k
  | none =>
    (sortDesc (fun r : SDoc => r.relevance_score)
      (docs.filterMap (keywordFallbackScore (wordSet3 (pyLower q).data)))).take top_k

/-! ## SemanticSearchStrategy  (search_strategies.py, lines 252-287) -/

/-- One enumerated document of the semantic loop: skip positions with no
precomputed embedding, keep similarities above 0.3.  The sklearn cosine
similarity is the injected parameter sim. -/
def semanticScoreDoc (sim : List ℚ → List ℚ → ℚ) (qv : List ℚ)
    (docEmb : List (Nat × List ℚ)) (p : Nat × Doc) : Option SDoc :=
  match docEmb.lookup p.1 with
  | none => none
  | some dv => if sim qv dv > 3/10 then some ⟨p.2, sim qv dv, "", "semantic", []⟩ else none

/-- SemanticSearchStrategy.search: empty when the embedder or the
document embedding table is absent (the falsy test of the source also
catches an empty table), empty when the embedder returns null or an
empty vector, else score, filter above 0.3, sort descending, truncate. -/
def semanticSearch (sim : List ℚ → List ℚ → ℚ) (embedder : Option (String → Option (List ℚ)))
    (docEmb : List (Nat × List ℚ)) (q : String) (docs : List Doc) (top_k : Nat) : List SDoc :=
  match embedder with
  | none => []
  | some f =>
    if docEmb = [] then []
    else
      match f q with
      | none => []
      | some qv =>
        if qv = [] then []
        else
          (sortDesc (fun r : SDoc => r.relevance_score)
            (docs.enum.filterMap (semanticScoreDoc sim qv docEmb))).take top_k

/-! ## MetadataSearchStrategy  (search_strategies.py, lines 297-374) -/

/-- The local synonym table of MetadataSearchStrategy, in source order. -/
def metaSynonyms : List (String × List String) :=
  [("fotos", ["fotografías", "imágenes"]),
   ("cartas", ["correspondencia", "misivas"]),
   ("dictadura", ["régimen militar", "pinochet"]),
   ("derechos humanos", ["ddhh", "violaciones"])]

/-- The expand_query helper of MetadataSearchStrategy: the original
query first, then for every table term contained in the lowered query
one lowered variant per synonym, appended in table order, no dedup. -/
def metaExpandQuery (q : String) : List String :=
  metaSynonyms.foldl
    (fun acc pr =>
      if containsChars pr.1.data (pyLower q).data then
        acc ++ pr.2.map (fun syn => (⟨replaceChars pr.1.data syn.data (pyLower q).data⟩ : String))
      else acc)
    [q]

/-- The Dublin Core fields with their weights, in the iteration order of
the FIELD_WEIGHTS table of the source. -/
def docFieldTexts (d : Doc) : List (String × ℚ) :=
  [(d.title, 3), (d.dcTitle, 3), (joinSpaceStr d.subject, 2),
   (joinSpaceStr d.creator, 3/2), (joinSpaceStr d.coverage, 1)]

/-- Contribution of one field for one query variant: overlap fraction of
the query tokens inside the field tokens times the field weight, with
the guard on a non empty query token set. -/
def metaFieldContribution (qw : Finset String) (fw : String × ℚ) : ℚ :=
  if qw.card > 0 then ((qw ∩ wordSet3 (pyLower fw.1).data).card : ℚ) / (qw.card : ℚ) * fw.2
  else 0

/-- Total metadata score of one document: summed over every expanded
query variant and every weighted field. -/
def metadataDocScore (queries : List String) (d : Doc) : ℚ :=
  queries.foldl
    (fun acc q =>
      acc + ((docFieldTexts d).foldl
        (fun acc2 fw => acc2 + metaFieldContribution (wordSet3 (pyLower q).data) fw) 0))
    0

/-- MetadataSearchStrategy.search: keep documents with positive score,
sort descending, truncate. -/
def metadataSearch (q : String) (docs : List Doc) (top_k : Nat) : List SDoc :=
  (sortDesc (fun r : SDoc => r.relevance_score)
    (docs.filterMap (fun d =>
      if metadataDocScore (metaExpandQuery q) d > 0 then
        some ⟨d, metadataDocScore (metaExpandQuery q) d, "", "metadata", []⟩
      else none))).take top_k

/-! ## HybridSearchStrategy  (search_strategies.py, lines 381-440) -/

/-- A configured sub strategy: its search function and its name.  The
Hybrid combiner is generic over any such pair, as in the source. -/
structure Strategy where
  run : String → List Doc → Nat → List SDoc
  sname : String

/-- One accumulated entry of the Hybrid fusion.  The source keeps two
dicts keyed by href (all_scores and all_results); both are inserted into
exactly when the href is first seen, so they share their key order and
are modelled as one association list in insertion order. -/
structure HEntry where
  href : String
  score : ℚ
  base : SDoc
  used : List String
deriving DecidableEq

/-- Add one ranked result of a sub strategy: accumulate the reciprocal
rank score under its href, keep the first seen document record, and
append the contributing strategy name. -/
def rrfUpsert (acc : List HEntry) (href : String) (delta : ℚ) (r : SDoc) (nm : String) :
    List HEntry :=
  if acc.any (fun e => e.href = href) then
    acc.map (fun e =>
      if e.href = href then { e with score := e.score + delta, used := e.used ++ [nm] } else e)
  else acc ++ [{ href := href, score := delta, base := r, used := [nm] }]

/-- Process the ranked output of one weighted sub strategy: document at
1 based rank r contributes weight divided by 60 plus r. -/
def rrfProcess (acc : List HEntry) (w : ℚ) (nm : String) (results : List SDoc) : List HEntry :=
  results.enum.foldl
    (fun a p => rrfUpsert a p.2.d.href (w / (60 + ((p.1 : ℚ) + 1))) p.2 nm) acc

/-- Run every configured sub strategy with the oversampled top_k times 2
and fuse the rankings. -/
def rrfCollect (strats : List (Strategy × ℚ)) (q : String) (docs : List Doc) (top_k : Nat) :
    List HEntry :=
  strats.foldl (fun acc sw => rrfProcess acc sw.2 sw.1.sname (sw.1.run q docs (top_k * 2))) []

/-- HybridSearchStrategy.search: empty without strategies, else fuse,
sort the accumulated scores descending, truncate, and emit the merged
records with the combined score. -/
def hybridSearch (strats : List (Strategy × ℚ)) (q : String) (docs : List Doc) (top_k : Nat) :
    List SDoc :=
  if strats.isEmpty then []
  else
    ((sortDesc (fun e : HEntry => e.score) (rrfCollect strats q docs top_k)).take top_k).map
      (fun e => { e.base with relevance_score := e.score, strategy := "hybrid",
                              strategiesUsed := e.used })

/-- The ranked output contract of spec sections 3 and 4.4: at most top_k
results, relevance scores non increasing by index. -/
def RankedOutput (k : Nat) (l : List SDoc) : Prop :=
  l.length ≤ k ∧ List.Chain' (fun a b => b.relevance_score ≤ a.relevance_score) l

/-- The ranking essence of a hybrid result: href and combined score. -/
def outHS (r : SDoc) : String × ℚ :=
  (r.d.href, r.relevance_score)

/-- The ranking essence of an accumulated fusion entry. -/
def entryHS (e : HEntry) : String × ℚ :=
  (e.href, e.score)

/-- Invariant of the fusion table: every entry is keyed by the href of
the document record it stores. -/
def GoodEntry (e : HEntry) : Prop :=
  e.base.d.href = e.href

/-- The exact title strategy as a configured Strategy record. -/
def exactStrat : Strategy :=
  ⟨fun q docs k => exactTitleSearch q docs k, "ExactTitleSearch"⟩

/-- The metadata strategy as a configured Strategy record. -/
def metaStrat : Strategy :=
  ⟨fun q docs k => metadataSearch q docs k, "MetadataSearch"⟩

/-- The TFIDF strategy without an index (keyword fallback) as a
configured Strategy record. -/
def tfidfStrat : Strategy :=
  ⟨fun q docs k => tfidfSearch none q docs k, "TFIDFSearch"⟩

/-- First document of the C3 counterexample corpus: found only by the
keyword fallback through its subject. -/
def c3d1 : Doc :=
  { title := "alpha", href := "/1", subject := ["zz12"] }

/-- Second document of the C3 counterexample corpus: found only by the
exact title strategy, through reverse containment of its short title in
the query. -/
def c3d2 : Doc :=
  { title := "zz", href := "/2" }

/-- Concrete similarity capability for witnesses. -/
def cSim : List ℚ → List ℚ → ℚ :=
  fun _ _ => 2/5

/-- Concrete embedder capability that always returns null. -/
def cEmbNone : String → Option (List ℚ) :=
  fun _ => none

/-! ## DocumentComparator  (conversation.py, lines 302-317) -/

/-- The similar_indices list of DocumentComparator.find_similar: indices
of documents whose href belongs to the previous href set. -/
def simIndices (new_docs : List Doc) (previous_hrefs : Finset String) : List Nat :=
  (new_docs.enum.filter (fun p => p.2.href ∈ previous_hrefs)).map (fun p => p.1)

/-- DocumentComparator.find_similar: the truly new documents (at indices
outside similar_indices) and the similar ones (looked up by index). -/
def find_similar (new_docs : List Doc) (previous_hrefs : Finset String) :
    List Doc × List Doc :=
  ((new_docs.enum.filter (fun p => p.1 ∉ simIndices new_docs previous_hrefs)).map
      (fun p => p.2),
   (simIndices new_docs previous_hrefs).filterMap (fun i => new_docs.get? i))

/-! ## FuzzyDocumentComparator  (conversation.py, lines 438-481) -/

/-- FuzzyDocumentComparator.find_similar: one pass over the documents;
exact href membership decides, and the fuzzy title branch of the source
computes nothing (is_similar stays False), so every non member is truly
new. -/
def fuzzy_find_similar (new_docs : List Doc) (previous_hrefs : Finset String) :
    List Doc × List Doc :=
  new_docs.foldl
    (fun acc d =>
      if d.href ∈ previous_hrefs then (acc.1, acc.2 ++ [d])
      else (acc.1 ++ [d], acc.2))
    ([], [])

/-! ## ConversationSession  (conversation.py, lines 82-116) -/

/-- One stored result of a search history entry: href and title, as
recorded by add_search. -/
structure SearchRecord where
  href : String
  title : String
deriving DecidableEq

/-- One search history entry.  The timestamp of the source comes from
the clock, an external capability, and is passed in. -/
structure HistoryEntry where
  query : String
  results : List SearchRecord
  timestamp : Nat
deriving DecidableEq

/-- The per conversation session state read by the claims: last query,
last results and the search history. -/
structure ConversationSession where
  session_id : String
  last_query : Option String := none
  last_results : List Doc := []
  search_history : List HistoryEntry := []

/-- A session as first created for an id. -/
def freshSession (sid : String) : ConversationSession :=
  { session_id := sid }

/-- The href and title pair recorded per result by add_search. -/
def recordOf (d : Doc) : SearchRecord :=
  ⟨d.href, d.title⟩

/-- The history entry recorded for one (query, results, timestamp). -/
def entryOf (x : String × List Doc × Nat) : HistoryEntry :=
  ⟨x.1, x.2.1.map recordOf, x.2.2⟩

/-- ConversationSession.add_search: record the query, the results and an
href and title pair per result at the end of the history. -/
def add_search (s : ConversationSession) (q : String) (results : List Doc) (ts : Nat) :
    ConversationSession :=
  { s with
    last_query := some q
    last_results := results
    search_history := s.search_history ++ [⟨q, results.map recordOf, ts⟩] }

/-- ConversationSession.get_previous_hrefs: the set of hrefs of every
history entry except the last one. -/
def get_previous_hrefs (s : ConversationSession) : Finset String :=
  s.search_history.dropLast.foldl
    (fun acc e => e.results.foldl (fun a r => insert r.href a) acc) ∅

/-- A session built by a sequence of add_search calls on a fresh
session; entries are (query, results, timestamp). -/
def applySearches (sid : String) (xs : List (String × List Doc × Nat)) :
    ConversationSession :=
  xs.foldl (fun s x => add_search s x.1 x.2.1 x.2.2) (freshSession sid)

/-! ## EntityExtractorImpl  (conversation.py, lines 235-295) -/

/-- Numeric value of a four digit year from its digits. -/
def yearVal (a b c d : Char) : Nat :=
  (a.toNat - 48) * 1000 + (b.toNat - 48) * 100 + (c.toNat - 48) * 10 + (d.toNat - 48)

/-- The findall of the year regex (word boundary, 19 or 20 then two
digits, word boundary): scan every position, checking the character
before and after against the word class, resuming after each match. -/
def findYearsL : Option Char → List Char → List Nat
  | prev, a :: b :: c :: d :: rest =>
    if (prev.all (fun p => !isWordChar p)) &&
        ((a = '1' && b = '9') || (a = '2' && b = '0')) && c.isDigit && d.isDigit &&
        (rest.head?.all (fun n => !isWordChar n)) then
      yearVal a b c d :: findYearsL (some d) rest
    else findYearsL (some a) (b :: c :: d :: rest)
  | _, a :: rest => findYearsL (some a) rest
  | _, [] => []

/-- Year extraction over a string. -/
def findYears (s : String) : List Nat :=
  findYearsL none s.data

/-- The default document type table, in source order. -/
def defaultDocTypes : List (String × List String) :=
  [("testimonios", ["testimonio", "testigo", "declaración", "relato"]),
   ("fotografías", ["foto", "fotografía", "imagen", "pic", "visual"]),
   ("reportes", ["reporte", "informe", "report", "documento"]),
   ("cartas", ["carta", "carta abierta", "missiva"]),
   ("actas", ["acta", "registro", "protocolo"]),
   ("comunicados", ["comunicado", "boletín", "aviso"])]

/-- Document type extraction: a category is added once when any of its
keywords occurs in the lowered message (the break of the source only
stops at the first matching keyword). -/
def extractDocTypes (ml : List Char) : List String :=
  defaultDocTypes.foldl
    (fun acc pr =>
      if pr.2.any (fun kw => containsChars kw.data ml) then acc ++ [pr.1] else acc)
    []

/-- The character class of the topic capture group: lowercase ASCII
letters, the five accented vowels and whitespace. -/
def isTopicChar (c : Char) : Bool :=
  ('a' ≤ c && c ≤ 'z') || c = 'á' || c = 'é' || c = 'í' || c = 'ó' || c = 'ú' || isWs c

/-- Index of the first period or comma of a list (its length if none):
the terminator of the lazy topic capture group. -/
def findTermIdx : List Char → Nat
  | [] => 0
  | c :: cs => if c = '.' || c = ',' then 0 else findTermIdx cs + 1

/-- Try the topic regex at one position: an alternative literal, at
least one whitespace, then the lazy group of class characters up to the
first period, comma or end.  When the first terminator lands inside the
whitespace run the backtracked match captures a single whitespace
character (stripped away later); a class violating character before the
terminator makes the position fail.  Returns the captured group and the
remainder after the whole match. -/
def tryTopicAt (alts : List (List Char)) (l : List Char) : Option (List Char × List Char) :=
  match alts.find? (fun a => a.isPrefixOf l) with
  | none => none
  | some alt =>
    let l1 := l.drop alt.length
    let w := (l1.takeWhile (isWs ·)).length
    if w = 0 then none
    else
      let t := findTermIdx l1
      if w + 1 ≤ t then
        if ((l1.take t).drop w).all (isTopicChar ·) then
          some ((l1.take t).drop w,
            if t = l1.length then [] else l1.drop (t + 1))
        else none
      else if 2 ≤ t then
        some ((l1.take t).drop (t - 1),
          if t = l1.length then [] else l1.drop (t + 1))
      else none

/-- findall of one topic pattern: scan left to right, resuming after
each match; fuel bounds the scan by the text length. -/
def scanTopics (alts : List (List Char)) : Nat → List Char → List (List Char)
  | 0, _ => []
  | _ + 1, [] => []
  | fuel + 1, l =>
    match tryTopicAt alts l with
    | some (g, rest) => g :: scanTopics alts fuel rest
    | none =>
      match l with
      | [] => []
      | _ :: cs => scanTopics alts fuel cs

/-- The alternatives of the first topic pattern, in source order. -/
def topicAlts1 : List (List Char) :=
  ["sobre".data, "acerca de".data, "de".data]

/-- The alternatives of the second topic pattern, in source order. -/
def topicAlts2 : List (List Char) :=
  ["principalmente".data, "especialmente".data]

/-- Both topic patterns, matches of the first pattern first, stripped
and dropped when empty, as in the list comprehension of the source. -/
def extractTopics (ml : List Char) : List String :=
  (((scanTopics topicAlts1 (ml.length + 1) ml ++ scanTopics topicAlts2 (ml.length + 1) ml).map
      stripChars).filter (fun t => !t.isEmpty)).map (fun t => (⟨t⟩ : String))

/-- The record returned by EntityExtractorImpl.extract. -/
structure Entities where
  years : List Nat
  doc_types : List String
  topics : List String
  has_new_info : Bool
deriving DecidableEq

/-- EntityExtractorImpl.extract: years from the raw message, document
types and topics from the lowered message, has_new_info when any of the
three is non empty. -/
def entityExtract (message : String) : Entities :=
  ⟨findYears message,
   extractDocTypes (pyLower message).data,
   extractTopics (pyLower message).data,
   !(findYears message).isEmpty || !(extractDocTypes (pyLower message).data).isEmpty ||
     !(extractTopics (pyLower message).data).isEmpty⟩

/-! ## IntentionDetector  (conversation.py, lines 119-173) -/

/-- The injected pattern table of IntentionDetector: one match predicate
per regex (the source injects the patterns dict; its default entries are
regex data). -/
structure IntentPatterns where
  unsatisfied : List (String → Bool)
  satisfied : List (String → Bool)

/-- IntentionDetector.detect: unsatisfied patterns first, then
satisfied patterns, then refinement when the entity extraction reports
new information, else unsatisfied. -/
def detect (ps : IntentPatterns) (message : String) : String :=
  if ps.unsatisfied.any (fun p => p (pyStrip (pyLower message))) then "unsatisfied"
  else if ps.satisfied.any (fun p => p (pyStrip (pyLower message))) then "satisfied"
  else if (entityExtract message).has_new_info then "refinement"
  else "unsatisfied"

/-- A concrete pattern table for witnesses: one substring test per
group. -/
def cPatterns : IntentPatterns :=
  ⟨[fun s => containsChars "no sirve".data s.data],
   [fun s => containsChars "gracia".data s.data]⟩

/-! ## DateRangeExtractor  (conversation.py, lines 588-666) -/

/-- The fixed period table, in source (insertion) order; the first
contained period name wins. -/
def periodMappings : List (String × (Nat × Nat)) :=
  [("gobierno de pinochet", (1973, 1990)),
   ("dictadura militar", (1973, 1990)),
   ("dictadura", (1973, 1990)),
   ("regimen militar", (1973, 1990)),
   ("gobierno de aylwin", (1990, 1994)),
   ("transicion", (1990, 1994)),
   ("unidad popular", (1970, 1973)),
   ("gobierno de allende", (1970, 1973)),
   ("golpe de estado", (1973, 1973)),
   ("golpe", (1973, 1973)),
   ("11 de septiembre", (1973, 1973)),
   ("plebiscito", (1988, 1988)),
   ("campana del no", (1988, 1988))]

/-- The first period of the table occurring in the lowered message. -/
def findPeriod (ml : List Char) : Option (String × (Nat × Nat)) :=
  periodMappings.find? (fun pr => containsChars pr.1.data ml)

/-- Consume at least one whitespace character, returning the rest. -/
def parseWs1 (l : List Char) : Option (List Char) :=
  if (l.takeWhile (isWs ·)).isEmpty then none
  else some (l.drop (l.takeWhile (isWs ·)).length)

/-- Consume exactly four digits, returning their value and the rest. -/
def parseDigits4 : List Char → Option (Nat × List Char)
  | a :: b :: c :: d :: rest =>
    if a.isDigit && b.isDigit && c.isDigit && d.isDigit then some (yearVal a b c d, rest)
    else none
  | _ => none

/-- Try the entre X y Y range regex at one position. -/
def tryRangeAt (l : List Char) : Option (Nat × Nat) :=
  if "entre".data.isPrefixOf l then
    match parseWs1 (l.drop 5) with
    | none => none
    | some l1 =>
      match parseDigits4 l1 with
      | none => none
      | some (x, l2) =>
        match parseWs1 l2 with
        | none => none
        | some l3 =>
          match l3 with
          | 'y' :: l4 =>
            match parseWs1 l4 with
            | none => none
            | some l5 =>
              match parseDigits4 l5 with
              | none => none
              | some (y, _) => some (x, y)
          | _ => none
  else none

/-- The first match of the range regex, scanning left to right. -/
def rangeSearch : List Char → Option (Nat × Nat)
  | [] => none
  | c :: cs =>
    match tryRangeAt (c :: cs) with
    | some r => some r
    | none => rangeSearch cs

/-- An optional literal followed by mandatory whitespace, consumed
greedily when present.  In the decade pattern a consumed unit whose
continuation fails cannot succeed by backtracking either (the remaining
text then starts with a letter, never a digit), so the greedy reading is
exact. -/
def optUnit (word : List Char) (l : List Char) : List Char :=
  if word.isPrefixOf l then
    if ((l.drop word.length).takeWhile (isWs ·)).isEmpty then l
    else (l.drop word.length).drop ((l.drop word.length).takeWhile (isWs ·)).length
  else l

/-- Consume two digits, returning their two digit value. -/
def parse2Digits : List Char → Option Nat
  | a :: b :: _ =>
    if a.isDigit && b.isDigit then some ((a.toNat - 48) * 10 + (b.toNat - 48)) else none
  | _ => none

/-- Remainder after the first matching alternative literal, if any. -/
def stripAlt (alts : List (List Char)) (l : List Char) : Option (List Char) :=
  match alts.find? (fun a => a.isPrefixOf l) with
  | none => none
  | some alt => some (l.drop alt.length)

/-- Try the first decade pattern at one position: decada with or
without accent, whitespace, optional de, optional los, two digits. -/
def tryDecade1At (l : List Char) : Option Nat :=
  match stripAlt ["década".data, "decada".data] l with
  | none => none
  | some l1 =>
    match parseWs1 l1 with
    | none => none
    | some l2 => parse2Digits (optUnit "los".data (optUnit "de".data l2))

/-- Try the second decade pattern at one position: anos with or without
tilde, whitespace, two digits. -/
def tryDecade2At (l : List Char) : Option Nat :=
  match stripAlt ["años".data, "anos".data] l with
  | none => none
  | some l1 =>
    match parseWs1 l1 with
    | none => none
    | some l2 => parse2Digits l2

/-- First match of the first decade pattern. -/
def decade1Search : List Char → Option Nat
  | [] => none
  | c :: cs =>
    match tryDecade1At (c :: cs) with
    | some v => some v
    | none => decade1Search cs

/-- First match of the second decade pattern. -/
def decade2Search : List Char → Option Nat
  | [] => none
  | c :: cs =>
    match tryDecade2At (c :: cs) with
    | some v => some v
    | none => decade2Search cs

/-- The record returned by DateRangeExtractor.extract (doc_types and
topics stay empty in the source). -/
structure DateEntities where
  years : List Nat
  doc_types : List String
  topics : List String
  has_new_info : Bool
  date_range : Option (Nat × Nat)
  period_name : Option String
deriving DecidableEq

/-- Steps one and two of DateRangeExtractor.extract: explicit years,
overwritten by the expanded entre X y Y range when it matches. -/
def dreRange (ml : List Char) : List Nat × Option (Nat × Nat) :=
  match rangeSearch ml with
  | some r => (List.range' r.1 (r.2 + 1 - r.1), some r)
  | none => (findYearsL none ml, none)

/-- Step three: the first contained period overwrites date_range and
sets period_name; years are kept when already non empty. -/
def drePeriod (ml : List Char) (yr : List Nat) (dr : Option (Nat × Nat)) :
    List Nat × Option (Nat × Nat) × Option String :=
  match findPeriod ml with
  | some pr =>
    ((if yr.isEmpty then List.range' pr.2.1 (pr.2.2 + 1 - pr.2.1) else yr),
     some pr.2, some pr.1)
  | none => (yr, dr, none)

/-- Step four: the first matching decade pattern overwrites date_range;
years are kept when already non empty. -/
def dreDecade (ml : List Char) (yr : List Nat) (dr : Option (Nat × Nat)) :
    List Nat × Option (Nat × Nat) :=
  match decade1Search ml with
  | some v => ((if yr.isEmpty then List.range' (1900 + v) 10 else yr), some (1900 + v, 1900 + v + 9))
  | none =>
    match decade2Search ml with
    | some v => ((if yr.isEmpty then List.range' (1900 + v) 10 else yr), some (1900 + v, 1900 + v + 9))
    | none => (yr, dr)

/-- DateRangeExtractor.extract over the lowered message. -/
def dateRangeExtract (message : String) : DateEntities :=
  let ml := (pyLower message).data
  let s1 := dreRange ml
  let s2 := drePeriod ml s1.1 s1.2
  let s3 := dreDecade ml s2.1 s2.2.1
  ⟨s3.1, [], [], !s3.1.isEmpty || s3.2.isSome, s3.2, s2.2.2⟩

/-! ## Theorems -/

theorem map_id_of_all {α : Type} {f : α → α} :
    ∀ {l : List α}, (∀ a ∈ l, f a = a) → l.map f = l := by
  intro l
  induction l with
  | nil => intro _; rfl
  | cons x xs ih =>
    intro h
    simp only [List.map_cons]
    rw [h x (List.mem_cons_self x xs), ih (fun a ha => h a (List.mem_cons_of_mem x ha))]

theorem pyLowerChar_plain {c : Char} (h : plainChar c = true) : pyLowerChar c = c := by
  have hall : plainChars.all (fun c => pyLowerChar c == c) = true := by decide
  have hc : c ∈ plainChars := by
    simpa [plainChar] using h
  have := List.all_eq_true.mp hall c hc
  simpa using this

theorem nfdStripChar_plain {c : Char} (h : plainChar c = true) : nfdStripChar c = c := by
  have hall : plainChars.all (fun c => nfdStripChar c == c) = true := by decide
  have hc : c ∈ plainChars := by
    simpa [plainChar] using h
  have := List.all_eq_true.mp hall c hc
  simpa using this

theorem applyTermMapping_of_not_contains :
    ∀ (L : List (List Char × List Char)) (s : List Char),
      (∀ pr ∈ L, containsChars pr.1 s = false) →
      L.foldl (fun acc pr => if containsChars pr.1 acc then replaceChars pr.1 pr.2 acc else acc) s
        = s := by
  intro L
  induction L with
  | nil => intro s _; rfl
  | cons p L ih =>
    intro s h
    have hp := h p (List.mem_cons_self p L)
    simp only [List.foldl_cons, hp, Bool.false_eq_true, if_false]
    exact ih s (fun q hq => h q (List.mem_cons_of_mem p hq))

/-- A string is in normal form when all its characters are plain, it has
no surrounding whitespace, its words are separated by single spaces, no
word is changed by the stemming step, and no abbreviation of the term
table occurs in it.  On such strings normalize_query is the identity. -/
theorem normalize_query_fixed {q : String}
    (hplain : ∀ c ∈ q.data, plainChar c = true)
    (hstrip : stripChars q.data = q.data)
    (hjoin : joinSpace (splitWs q.data) = q.data)
    (hstem : ∀ w ∈ splitWs q.data, stemWord w = w)
    (hmap : ∀ pr ∈ termMapping, containsChars pr.1 q.data = false) :
    normalize_query q = q := by
  unfold normalize_query
  rw [map_id_of_all (fun c hc => pyLowerChar_plain (hplain c hc)), hstrip,
    map_id_of_all (fun c hc => nfdStripChar_plain (hplain c hc)),
    map_id_of_all hstem, hjoin]
  show String.mk (applyTermMapping q.data) = q
  rw [applyTermMapping, applyTermMapping_of_not_contains termMapping q.data hmap]

/-- C2 counterexample: normalize_query is not idempotent.  The table
entry 73 to 1973 reintroduces the substring 73, so a second application
of normalize_query turns 1973 into 191973. -/
theorem normalize_query_not_idempotent :
    normalize_query (normalize_query "73") ≠ normalize_query "73" := by
  decide

/-- C2 (amended): normalize_query is idempotent on inputs that are
already in normal form: all characters plain, no surrounding whitespace,
single spaces between words, no word altered by stemming, and no
abbreviation of the term table occurring as a substring.  In general it
is not idempotent (see the counterexample on the input 73). -/
theorem normalize_query_idempotent_on_normal_inputs {q : String}
    (hplain : ∀ c ∈ q.data, plainChar c = true)
    (hstrip : stripChars q.data = q.data)
    (hjoin : joinSpace (splitWs q.data) = q.data)
    (hstem : ∀ w ∈ splitWs q.data, stemWord w = w)
    (hmap : ∀ pr ∈ termMapping, containsChars pr.1 q.data = false) :
    normalize_query (normalize_query q) = normalize_query q := by
  rw [normalize_query_fixed hplain hstrip hjoin hstem hmap]
  exact normalize_query_fixed hplain hstrip hjoin hstem hmap

/-- Witness for the amended C2 theorem at a concrete normal form input. -/
theorem normalize_query_idempotent_on_normal_inputs_witness :
    normalize_query (normalize_query "carta del ministro")
      = normalize_query "carta del ministro" :=
  normalize_query_idempotent_on_normal_inputs
    (by decide) (by decide) (by decide) (by decide) (by decide)

/-! ### Properties of the stable descending sort -/

theorem mem_insertDesc {α : Type} (key : α → ℚ) (x a : α) :
    ∀ {l : List α}, a ∈ insertDesc key x l ↔ a = x ∨ a ∈ l := by
  intro l
  induction l with
  | nil => simp [insertDesc]
  | cons y ys ih =>
    by_cases hc : key y ≤ key x
    · simp only [insertDesc, if_pos hc, List.mem_cons]
    · simp only [insertDesc, if_neg hc, List.mem_cons, ih]
      tauto

theorem mem_sortDesc {α : Type} (key : α → ℚ) (a : α) :
    ∀ {l : List α}, a ∈ sortDesc key l ↔ a ∈ l := by
  intro l
  induction l with
  | nil => simp [sortDesc]
  | cons x xs ih => simp only [sortDesc, mem_insertDesc, List.mem_cons, ih]

theorem length_insertDesc {α : Type} (key : α → ℚ) (x : α) :
    ∀ (l : List α), (insertDesc key x l).length = l.length + 1 := by
  intro l
  induction l with
  | nil => rfl
  | cons y ys ih =>
    by_cases hc : key y ≤ key x
    · simp [insertDesc, if_pos hc]
    · simp [insertDesc, if_neg hc, ih]

theorem length_sortDesc {α : Type} (key : α → ℚ) :
    ∀ (l : List α), (sortDesc key l).length = l.length := by
  intro l
  induction l with
  | nil => rfl
  | cons x xs ih => simp [sortDesc, length_insertDesc, ih]

theorem chain_insertDesc {α : Type} (key : α → ℚ) (x : α) :
    ∀ {l : List α}, List.Chain' (fun a b => key b ≤ key a) l →
      List.Chain' (fun a b => key b ≤ key a) (insertDesc key x l) := by
  intro l
  induction l with
  | nil => intro _; exact List.chain'_singleton x
  | cons y ys ih =>
    intro h
    by_cases hc : key y ≤ key x
    · rw [insertDesc, if_pos hc]
      exact List.chain'_cons.mpr ⟨hc, h⟩
    · rw [insertDesc, if_neg hc]
      have hx : key x ≤ key y := le_of_not_le hc
      refine List.chain'_cons'.mpr ⟨?_, ih h.tail⟩
      intro b hb
      cases ys with
      | nil =>
        simp only [insertDesc, List.head?_cons, Option.mem_some_iff] at hb
        rw [← hb]
        exact hx
      | cons z zs =>
        by_cases hz : key z ≤ key x
        · rw [insertDesc, if_pos hz] at hb
          simp only [List.head?_cons, Option.mem_some_iff] at hb
          rw [← hb]
          exact hx
        · rw [insertDesc, if_neg hz] at hb
          simp only [List.head?_cons, Option.mem_some_iff] at hb
          rw [← hb]
          exact (List.chain'_cons.mp h).1

theorem chain_sortDesc {α : Type} (key : α → ℚ) :
    ∀ (l : List α), List.Chain' (fun a b => key b ≤ key a) (sortDesc key l) := by
  intro l
  induction l with
  | nil => exact List.chain'_nil
  | cons x xs ih => exact chain_insertDesc key x ih

/-! ### C1: exact title search and the query normalizer -/

theorem mem_href_inj :
    ∀ {docs : List Doc}, List.Pairwise (fun a b => a.href ≠ b.href) docs →
      ∀ {d d' : Doc}, d ∈ docs → d' ∈ docs → d.href = d'.href → d = d' := by
  intro docs
  induction docs with
  | nil => intro _ d d' h; cases h
  | cons x xs ih =>
    intro hp d d' hd hd' he
    rcases List.mem_cons.mp hd with rfl | hd₁ <;> rcases List.mem_cons.mp hd' with rfl | hd₂
    · rfl
    · exact absurd he ((List.pairwise_cons.mp hp).1 d' hd₂)
    · exact absurd he.symm ((List.pairwise_cons.mp hp).1 d hd₁)
    · exact ih (List.pairwise_cons.mp hp).2 hd₁ hd₂ he

theorem exactTitleScore_one_iff (ql : String) (qWords : Finset String) (t : String) :
    (∃ mt, exactTitleScore ql qWords t = some (1, mt)) ↔ ql = pyLower t := by
  constructor
  · rintro ⟨mt, h⟩
    by_cases h1 : ql = pyLower t
    · exact h1
    rw [exactTitleScore, if_neg h1] at h
    by_cases h2 : containsChars ql.data (pyLower t).data = true
    · rw [if_pos h2] at h
      exact absurd (Prod.mk.injEq _ _ _ _ ▸ Option.some.inj h).1 (by norm_num)
    rw [if_neg h2] at h
    by_cases h3 : containsChars (pyLower t).data ql.data = true
    · rw [if_pos h3] at h
      exact absurd (Prod.mk.injEq _ _ _ _ ▸ Option.some.inj h).1 (by norm_num)
    rw [if_neg h3] at h
    by_cases h4 : (qWords ∩ wordSet (pyLower t).data).card > 0
    · rw [if_pos h4] at h
      have hval := (Prod.mk.injEq _ _ _ _ ▸ Option.some.inj h).1
      have hle : (qWords ∩ wordSet (pyLower t).data).card ≤ qWords.card :=
        Finset.card_le_card Finset.inter_subset_left
      have hqpos : 0 < qWords.card := lt_of_lt_of_le h4 hle
      have hfrac : ((qWords ∩ wordSet (pyLower t).data).card : ℚ) / (qWords.card : ℚ) ≤ 1 :=
        div_le_one_of_le₀ (by exact_mod_cast hle) (by positivity)
      have : ((qWords ∩ wordSet (pyLower t).data).card : ℚ) / (qWords.card : ℚ) * (7/10) ≤ 7/10 := by
        nlinarith [hfrac]
      rw [hval] at this
      norm_num at this
    · rw [if_neg h4] at h
      cases h
  · intro h
    exact ⟨"exact", by rw [exactTitleScore, if_pos h]⟩

theorem exactTitleScoreDoc_spec {ql : String} {qw : Finset String} {d : Doc} {r : SDoc}
    (h : exactTitleScoreDoc ql qw d = some r) :
    r.d = d ∧ docTitle d ≠ "" ∧
      exactTitleScore ql qw (docTitle d) = some (r.relevance_score, r.matchType) := by
  rw [exactTitleScoreDoc] at h
  by_cases ht : docTitle d = ""
  · rw [if_pos ht] at h
    cases h
  rw [if_neg ht] at h
  cases hsc : exactTitleScore ql qw (docTitle d) with
  | none => rw [hsc] at h; cases h
  | some p =>
    obtain ⟨s, mt⟩ := p
    rw [hsc] at h
    cases Option.some.inj h
    exact ⟨rfl, ht, rfl⟩

/-- C1 (amended): ExactTitleSearchStrategy.search returns a document
with relevance score 1.0 exactly when the lowered stripped query equals
the lowered title (over distinct hrefs, with top_k at least the corpus
size so that no score 1.0 result is truncated away).  The strategy never
applies the section 4.1 normalizer: it only lowercases and strips, so
the claim as stated, with normalized(Q) = normalized(title(D)), is
refuted by the counterexample below. -/
theorem exactTitleSearch_score_one_iff (q : String) (docs : List Doc) (k : Nat) (d : Doc)
    (hd : d ∈ docs) (hk : docs.length ≤ k)
    (hp : List.Pairwise (fun a b => a.href ≠ b.href) docs) :
    (∃ r ∈ exactTitleSearch q docs k, r.d.href = d.href ∧ r.relevance_score = 1) ↔
      (docTitle d ≠ "" ∧ pyStrip (pyLower q) = pyLower (docTitle d)) := by
  have hsortlen :
      (sortDesc (fun r : SDoc => r.relevance_score)
        (docs.filterMap
          (exactTitleScoreDoc (pyStrip (pyLower q)) (wordSet (pyStrip (pyLower q)).data)))).length
        ≤ k := by
    rw [length_sortDesc]
    exact le_trans (List.length_filterMap_le _ _) hk
  have hres : exactTitleSearch q docs k
      = sortDesc (fun r : SDoc => r.relevance_score)
          (docs.filterMap
            (exactTitleScoreDoc (pyStrip (pyLower q)) (wordSet (pyStrip (pyLower q)).data))) := by
    rw [exactTitleSearch]
    exact List.take_of_length_le hsortlen
  constructor
  · rintro ⟨r, hr, hhref, hsc⟩
    rw [hres] at hr
    obtain ⟨d', hd', hfd⟩ := List.mem_filterMap.mp ((mem_sortDesc _ _).mp hr)
    obtain ⟨hrd, ht, hscore⟩ := exactTitleScoreDoc_spec hfd
    have hdd : d' = d := mem_href_inj hp hd' hd (by rw [← hrd, hhref])
    subst hdd
    refine ⟨ht, ?_⟩
    exact (exactTitleScore_one_iff _ _ _).mp ⟨r.matchType, by rw [hscore, hsc]⟩
  · rintro ⟨ht, heq⟩
    have hscore : exactTitleScore (pyStrip (pyLower q)) (wordSet (pyStrip (pyLower q)).data)
        (docTitle d) = some (1, "exact") := by
      rw [exactTitleScore, if_pos heq]
    refine ⟨⟨d, 1, "exact", "exact_title", []⟩, ?_, rfl, rfl⟩
    rw [hres]
    refine (mem_sortDesc _ _).mpr (List.mem_filterMap.mpr ⟨d, hd, ?_⟩)
    rw [exactTitleScoreDoc, if_neg ht, hscore]

/-- Witness for the amended C1 theorem: a singleton corpus on which the
returned score 1.0 result is characterized by lowercase equality. -/
theorem exactTitleSearch_score_one_iff_witness :
    (∃ r ∈ exactTitleSearch "Foto" [c1Doc] 10, r.d.href = c1Doc.href ∧ r.relevance_score = 1) ↔
      (docTitle c1Doc ≠ "" ∧ pyStrip (pyLower "Foto") = pyLower (docTitle c1Doc)) :=
  exactTitleSearch_score_one_iff "Foto" [c1Doc] 10 c1Doc (by decide) (by decide) (by decide)

/-- C1 counterexample: with the one document corpus whose title is foto
and the query fotos, the section 4.1 normalizer maps query and title to
the same string, yet the strategy returns the document with score 0.85
(reverse containment), not 1.0, so the claimed equivalence is false. -/
theorem exactTitleSearch_claim_counterexample :
    ¬ ((∃ r ∈ exactTitleSearch "fotos" [c1Doc] 10, r.d.href = c1Doc.href ∧ r.relevance_score = 1) ↔
        normalize_query "fotos" = normalize_query c1Doc.title) := by
  intro h
  have hnorm : normalize_query "fotos" = normalize_query c1Doc.title := by decide
  obtain ⟨r, hr, _, hsc⟩ := h.mpr hnorm
  rw [exactTitleSearch] at hr
  obtain ⟨d', hd', hfd⟩ :=
    List.mem_filterMap.mp ((mem_sortDesc _ _).mp ((List.take_prefix _ _).sublist.subset hr))
  rw [List.mem_singleton.mp hd'] at hfd
  obtain ⟨hrd, ht, hscore⟩ := exactTitleScoreDoc_spec hfd
  have hq : pyStrip (pyLower "fotos") = pyLower (docTitle c1Doc) :=
    (exactTitleScore_one_iff _ _ _).mp ⟨r.matchType, by rw [hscore, hsc]⟩
  exact absurd hq (by decide)

/-! ### C8: every strategy emits at most top_k results, scores non increasing -/

theorem rankedOutput_take_sortDesc (k : Nat) (l : List SDoc) :
    RankedOutput k ((sortDesc (fun r : SDoc => r.relevance_score) l).take k) :=
  ⟨List.length_take_le k _, (chain_sortDesc _ l).take k⟩

theorem tfidfCell_score {docs : List Doc} {p : Nat × ℚ} {r : SDoc}
    (h : tfidfCell docs p = some r) : r.relevance_score = p.2 := by
  rw [tfidfCell] at h
  by_cases hc : p.2 > 1/100
  · rw [if_pos hc] at h
    cases hg : docs.get? p.1 with
    | none => rw [hg] at h; cases h
    | some d =>
      rw [hg] at h
      cases Option.some.inj h
      rfl
  · rw [if_neg hc] at h
    cases h

theorem rankedOutput_tfidfIndex (s : List ℚ) (docs : List Doc) (k : Nat) :
    RankedOutput k (tfidfIndexSearch s docs k) := by
  constructor
  · exact le_trans (List.length_filterMap_le _ _) (List.length_take_le _ _)
  · haveI : IsTrans (Nat × ℚ) (fun a b => b.2 ≤ a.2) :=
      ⟨fun _ _ _ h1 h2 => le_trans h2 h1⟩
    haveI : IsTrans SDoc (fun a b => b.relevance_score ≤ a.relevance_score) :=
      ⟨fun _ _ _ h1 h2 => le_trans h2 h1⟩
    have hch : List.Chain' (fun a b : Nat × ℚ => b.2 ≤ a.2)
        ((sortDesc (fun p : Nat × ℚ => p.2) s.enum).take k) :=
      (chain_sortDesc _ _).take k
    refine List.chain'_iff_pairwise.mpr ?_
    refine (List.chain'_iff_pairwise.mp hch).filterMap (tfidfCell docs) ?_
    intro a a' hr b hb b' hb'
    rw [tfidfCell_score hb, tfidfCell_score hb']
    exact hr

theorem rankedOutput_hybrid (strats : List (Strategy × ℚ)) (q : String) (docs : List Doc)
    (k : Nat) : RankedOutput k (hybridSearch strats q docs k) := by
  rw [hybridSearch]
  by_cases he : strats.isEmpty = true
  · rw [if_pos he]
    exact ⟨Nat.zero_le k, List.chain'_nil⟩
  · rw [if_neg he]
    constructor
    · rw [List.length_map]
      exact List.length_take_le _ _
    · rw [List.chain'_map]
      exact (chain_sortDesc (fun e : HEntry => e.score) _).take k

/-- C8: for every search strategy variant of the source (ExactTitle,
TFIDF with or without an index, Semantic, Metadata, Hybrid over any
configuration), every query, document list and top_k, the output has
length at most top_k and its relevance scores are monotonically non
increasing by index. -/
theorem search_strategies_ranked (q : String) (docs : List Doc) (k : Nat)
    (index : Option (String → List ℚ)) (sim : List ℚ → List ℚ → ℚ)
    (embedder : Option (String → Option (List ℚ))) (docEmb : List (Nat × List ℚ))
    (strats : List (Strategy × ℚ)) :
    RankedOutput k (exactTitleSearch q docs k) ∧
    RankedOutput k (tfidfSearch index q docs k) ∧
    RankedOutput k (semanticSearch sim embedder docEmb q docs k) ∧
    RankedOutput k (metadataSearch q docs k) ∧
    RankedOutput k (hybridSearch strats q docs k) := by
  refine ⟨rankedOutput_take_sortDesc k _, ?_, ?_, rankedOutput_take_sortDesc k _,
    rankedOutput_hybrid strats q docs k⟩
  · cases index with
    | none => exact rankedOutput_take_sortDesc k _
    | some sims => exact rankedOutput_tfidfIndex (sims q) docs k
  · cases embedder with
    | none => exact ⟨Nat.zero_le k, List.chain'_nil⟩
    | some f =>
      rw [semanticSearch]
      by_cases hD : docEmb = []
      · rw [if_pos hD]
        exact ⟨Nat.zero_le k, List.chain'_nil⟩
      · rw [if_neg hD]
        cases f q with
        | none => exact ⟨Nat.zero_le k, List.chain'_nil⟩
        | some qv =>
          dsimp only
          by_cases hv : qv = []
          · rw [if_pos hv]
            exact ⟨Nat.zero_le k, List.chain'_nil⟩
          · rw [if_neg hv]
            exact rankedOutput_take_sortDesc k _

/-! ### C7: semantic search guards, threshold and degradation -/

theorem semanticScoreDoc_spec {sim : List ℚ → List ℚ → ℚ} {qv : List ℚ}
    {docEmb : List (Nat × List ℚ)} {p : Nat × Doc} {r : SDoc}
    (h : semanticScoreDoc sim qv docEmb p = some r) :
    r.relevance_score > 3/10 ∧
      ∃ dv, docEmb.lookup p.1 = some dv ∧ r.relevance_score = sim qv dv := by
  rw [semanticScoreDoc] at h
  cases hl : docEmb.lookup p.1 with
  | none => rw [hl] at h; cases h
  | some dv =>
    rw [hl] at h
    dsimp only at h
    by_cases hs : sim qv dv > 3/10
    · rw [if_pos hs] at h
      cases Option.some.inj h
      exact ⟨hs, dv, rfl, rfl⟩
    · rw [if_neg hs] at h
      cases h

/-- C7: SemanticSearchStrategy.search returns the empty list immediately
when the embedder is absent, when the document embedding table is empty
(the falsy guard of the source), or when the embedder returns null; and
every returned result carries a similarity with the query embedding
(under the injected cosine capability) strictly greater than 0.3.  The
embedding is total, modelling the catch all of the source that turns any
internal failure into an empty result. -/
theorem semanticSearch_safe (sim : List ℚ → List ℚ → ℚ) (docEmb : List (Nat × List ℚ))
    (q : String) (docs : List Doc) (k : Nat) :
    semanticSearch sim none docEmb q docs k = [] ∧
    (∀ f, docEmb = [] → semanticSearch sim (some f) docEmb q docs k = []) ∧
    (∀ f, f q = none → semanticSearch sim (some f) docEmb q docs k = []) ∧
    (∀ f qv r, f q = some qv → r ∈ semanticSearch sim (some f) docEmb q docs k →
      r.relevance_score > 3/10 ∧
        ∃ i dv, docEmb.lookup i = some dv ∧ r.relevance_score = sim qv dv) := by
  refine ⟨rfl, ?_, ?_, ?_⟩
  · intro f h
    rw [semanticSearch, if_pos h]
  · intro f h
    rw [semanticSearch]
    by_cases hD : docEmb = []
    · rw [if_pos hD]
    · rw [if_neg hD, h]
  · intro f qv r hq hr
    rw [semanticSearch] at hr
    by_cases hD : docEmb = []
    · rw [if_pos hD] at hr
      cases hr
    rw [if_neg hD, hq] at hr
    dsimp only at hr
    by_cases hv : qv = []
    · rw [if_pos hv] at hr
      cases hr
    rw [if_neg hv] at hr
    obtain ⟨p, _, hf⟩ :=
      List.mem_filterMap.mp ((mem_sortDesc _ _).mp ((List.take_prefix _ _).sublist.subset hr))
    obtain ⟨hgt, dv, hdv, hrel⟩ := semanticScoreDoc_spec hf
    exact ⟨hgt, p.1, dv, hdv, hrel⟩

/-- Witness for C7: with an embedder that returns null, the semantic
strategy degrades to the empty result. -/
theorem semanticSearch_safe_witness :
    semanticSearch cSim (some cEmbNone) [(0, [1])] "carta" [c1Doc] 5 = [] :=
  (semanticSearch_safe cSim [(0, [1])] "carta" [c1Doc] 5).2.2.1 cEmbNone rfl

/-! ### C3: appending a weight zero strategy to the Hybrid fusion -/

theorem map_insertDesc {α β : Type} (key : α → ℚ) (keyB : β → ℚ) (g : α → β)
    (hkey : ∀ a, keyB (g a) = key a) (x : α) :
    ∀ l : List α, (insertDesc key x l).map g = insertDesc keyB (g x) (l.map g) := by
  intro l
  induction l with
  | nil => rfl
  | cons y ys ih =>
    by_cases hc : key y ≤ key x
    · rw [insertDesc, if_pos hc, List.map_cons, List.map_cons, insertDesc,
        if_pos (by rw [hkey, hkey]; exact hc)]
    · rw [insertDesc, if_neg hc, List.map_cons, List.map_cons, insertDesc,
        if_neg (by rw [hkey, hkey]; exact hc), ih]

theorem map_sortDesc {α β : Type} (key : α → ℚ) (keyB : β → ℚ) (g : α → β)
    (hkey : ∀ a, keyB (g a) = key a) :
    ∀ l : List α, (sortDesc key l).map g = sortDesc keyB (l.map g) := by
  intro l
  induction l with
  | nil => rfl
  | cons x xs ih =>
    rw [sortDesc, List.map_cons, sortDesc, ← ih, map_insertDesc key keyB g hkey]

theorem sortDesc_of_const {α : Type} (key : α → ℚ) (c : ℚ) :
    ∀ l : List α, (∀ z ∈ l, key z = c) → sortDesc key l = l := by
  intro l
  induction l with
  | nil => intro _; rfl
  | cons x xs ih =>
    intro h
    rw [sortDesc, ih (fun z hz => h z (List.mem_cons_of_mem _ hz))]
    cases xs with
    | nil => rfl
    | cons y ys =>
      rw [insertDesc, if_pos]
      rw [h y (by simp), h x (by simp)]

theorem insertDesc_append_low {α : Type} (key : α → ℚ) (x : α) (zs : List α)
    (hz : ∀ z ∈ zs, key z ≤ key x) :
    ∀ ys : List α, insertDesc key x (ys ++ zs) = insertDesc key x ys ++ zs := by
  intro ys
  induction ys with
  | nil =>
    cases zs with
    | nil => rfl
    | cons z zs' =>
      show insertDesc key x (z :: zs') = [x] ++ z :: zs'
      rw [insertDesc, if_pos (hz z (by simp))]
      rfl
  | cons y ys ih =>
    by_cases hc : key y ≤ key x
    · rw [List.cons_append, insertDesc, if_pos hc, insertDesc, if_pos hc]
      rfl
    · rw [List.cons_append, insertDesc, if_neg hc, insertDesc, if_neg hc, ih,
        List.cons_append]

theorem sortDesc_append_low {α : Type} (key : α → ℚ) (zs : List α)
    (hzs : sortDesc key zs = zs) :
    ∀ l : List α, (∀ z ∈ zs, ∀ a ∈ l, key z ≤ key a) →
      sortDesc key (l ++ zs) = sortDesc key l ++ zs := by
  intro l
  induction l with
  | nil =>
    intro _
    rw [List.nil_append, hzs, sortDesc]
    rfl
  | cons x xs ih =>
    intro h
    rw [List.cons_append, sortDesc,
      ih (fun z hz a ha => h z hz a (List.mem_cons_of_mem _ ha)), sortDesc,
      insertDesc_append_low key x zs (fun z hz => h z hz x (List.mem_cons_self _ _))]

theorem entryHS_upsert_zero (acc : List HEntry) (h : String) (r : SDoc) (nm : String) :
    ∃ ws, ((rrfUpsert acc h 0 r nm).map entryHS = acc.map entryHS ++ ws ∧
      ∀ z ∈ ws, z.2 = (0 : ℚ)) := by
  rw [rrfUpsert]
  by_cases hin : acc.any (fun e => e.href = h) = true
  · rw [if_pos hin]
    refine ⟨[], ?_, by simp⟩
    rw [List.append_nil, List.map_map]
    refine List.map_congr_left ?_
    intro e _
    show entryHS (if e.href = h then
      { e with score := e.score + 0, used := e.used ++ [nm] } else e) = entryHS e
    by_cases he : e.href = h
    · rw [if_pos he]
      show (e.href, e.score + 0) = (e.href, e.score)
      rw [add_zero]
    · rw [if_neg he]
  · rw [if_neg hin]
    refine ⟨[(h, 0)], ?_, by simp⟩
    rw [List.map_append]
    rfl

theorem entryHS_foldZero (nm : String) :
    ∀ (ps : List (Nat × SDoc)) (acc : List HEntry),
      ∃ zs, ((ps.foldl
          (fun a p => rrfUpsert a p.2.d.href ((0 : ℚ) / (60 + ((p.1 : ℚ) + 1))) p.2 nm)
          acc).map entryHS = acc.map entryHS ++ zs ∧ ∀ z ∈ zs, z.2 = (0 : ℚ)) := by
  intro ps
  induction ps with
  | nil => intro acc; exact ⟨[], by simp, by simp⟩
  | cons p ps ih =>
    intro acc
    rw [List.foldl_cons, zero_div]
    obtain ⟨ws, hws, hws0⟩ := entryHS_upsert_zero acc p.2.d.href p.2 nm
    obtain ⟨zs, hzs, hzs0⟩ := ih (rrfUpsert acc p.2.d.href 0 p.2 nm)
    exact ⟨ws ++ zs, by rw [hzs, hws, List.append_assoc],
      fun z hz => (List.mem_append.mp hz).elim (hws0 z) (hzs0 z)⟩

theorem entryHS_process_zero (nm : String) (results : List SDoc) (acc : List HEntry) :
    ∃ zs, ((rrfProcess acc 0 nm results).map entryHS = acc.map entryHS ++ zs ∧
      ∀ z ∈ zs, z.2 = (0 : ℚ)) :=
  entryHS_foldZero nm results.enum acc

theorem goodEntry_upsert {acc : List HEntry} (hacc : ∀ e ∈ acc, GoodEntry e)
    (r : SDoc) (δ : ℚ) (nm : String) :
    ∀ e ∈ rrfUpsert acc r.d.href δ r nm, GoodEntry e := by
  intro e he
  rw [rrfUpsert] at he
  by_cases hin : acc.any (fun x => x.href = r.d.href) = true
  · rw [if_pos hin] at he
    obtain ⟨e0, he0, heq⟩ := List.mem_map.mp he
    by_cases hh : e0.href = r.d.href
    · rw [if_pos hh] at heq
      rw [← heq]
      exact hacc e0 he0
    · rw [if_neg hh] at heq
      rw [← heq]
      exact hacc e0 he0
  · rw [if_neg hin] at he
    rcases List.mem_append.mp he with h1 | h2
    · exact hacc e h1
    · rw [List.mem_singleton.mp h2]
      rfl

theorem goodEntry_foldAux (w : ℚ) (nm : String) :
    ∀ (ps : List (Nat × SDoc)) (acc : List HEntry), (∀ e ∈ acc, GoodEntry e) →
      ∀ e ∈ ps.foldl
          (fun a p => rrfUpsert a p.2.d.href (w / (60 + ((p.1 : ℚ) + 1))) p.2 nm) acc,
        GoodEntry e := by
  intro ps
  induction ps with
  | nil => intro acc hacc; exact hacc
  | cons p ps ih =>
    intro acc hacc
    rw [List.foldl_cons]
    exact ih _ (goodEntry_upsert hacc p.2 _ nm)

theorem goodEntry_collect (strats : List (Strategy × ℚ)) (q : String) (docs : List Doc)
    (k : Nat) : ∀ e ∈ rrfCollect strats q docs k, GoodEntry e := by
  suffices h : ∀ (L : List (Strategy × ℚ)) (acc : List HEntry), (∀ e ∈ acc, GoodEntry e) →
      ∀ e ∈ L.foldl (fun acc sw => rrfProcess acc sw.2 sw.1.sname (sw.1.run q docs (k * 2))) acc,
        GoodEntry e by
    exact h strats [] (by intro e he; cases he)
  intro L
  induction L with
  | nil => intro acc hacc; exact hacc
  | cons sw L ih =>
    intro acc hacc
    rw [List.foldl_cons]
    exact ih _ (goodEntry_foldAux sw.2 sw.1.sname _ acc hacc)

theorem hybrid_map_outHS (strats : List (Strategy × ℚ)) (q : String) (docs : List Doc)
    (k : Nat) (hne : strats.isEmpty = false) :
    (hybridSearch strats q docs k).map outHS
      = (sortDesc (fun p : String × ℚ => p.2)
          ((rrfCollect strats q docs k).map entryHS)).take k := by
  rw [hybridSearch, if_neg (by rw [hne]; exact Bool.false_ne_true), List.map_map]
  have hgood : ∀ e ∈ (sortDesc (fun e : HEntry => e.score)
      (rrfCollect strats q docs k)).take k, GoodEntry e := by
    intro e he
    exact goodEntry_collect strats q docs k e
      ((mem_sortDesc _ _).mp ((List.take_prefix _ _).sublist.subset he))
  rw [List.map_congr_left (fun e he => show (outHS ∘ _) e = entryHS e by
    have hg := hgood e he
    unfold GoodEntry at hg
    show (e.base.d.href, e.score) = (e.href, e.score)
    rw [hg])]
  rw [List.map_take, map_sortDesc (fun e : HEntry => e.score) (fun p : String × ℚ => p.2)
    entryHS (fun _ => rfl)]

/-- C3 (amended): appending a weight zero strategy to a Hybrid
configuration never changes the scores or relative order of the results
the original configuration returns, but it is not a no op: the new
result list, viewed as href and score pairs, is the original ranking
followed by zero or more extra entries with accumulated score 0 (hrefs
first touched by the weight zero strategy; the defaultdict of the source
inserts them on the += of a zero increment), provided the accumulated
scores of the original configuration are nonnegative.  When the original
result already fills top_k, nothing changes. -/
theorem hybrid_weight_zero_appended (base : List (Strategy × ℚ)) (s0 : Strategy)
    (q : String) (docs : List Doc) (k : Nat)
    (hpos : ∀ e ∈ rrfCollect base q docs k, 0 ≤ e.score) :
    ∃ zs, ((hybridSearch (base ++ [(s0, 0)]) q docs k).map outHS
        = (hybridSearch base q docs k).map outHS ++ zs ∧ ∀ z ∈ zs, z.2 = (0 : ℚ)) := by
  have hcollect : rrfCollect (base ++ [(s0, 0)]) q docs k
      = rrfProcess (rrfCollect base q docs k) 0 s0.sname (s0.run q docs (k * 2)) := by
    rw [rrfCollect, List.foldl_append]
    rfl
  obtain ⟨zs, hzs, hzs0⟩ :=
    entryHS_process_zero s0.sname (s0.run q docs (k * 2)) (rrfCollect base q docs k)
  have hne' : (base ++ [(s0, 0)]).isEmpty = false := by
    cases base <;> rfl
  rw [hybrid_map_outHS _ q docs k hne', hcollect, hzs]
  have hz_le : ∀ z ∈ zs, ∀ a ∈ (rrfCollect base q docs k).map entryHS,
      (fun p : String × ℚ => p.2) z ≤ (fun p : String × ℚ => p.2) a := by
    intro z hz a ha
    obtain ⟨e, he, rfl⟩ := List.mem_map.mp ha
    show z.2 ≤ (entryHS e).2
    rw [hzs0 z hz]
    exact hpos e he
  have hzsorted : sortDesc (fun p : String × ℚ => p.2) zs = zs :=
    sortDesc_of_const _ 0 zs hzs0
  rw [sortDesc_append_low _ zs hzsorted _ hz_le, List.take_append_eq_append_take]
  by_cases hbe : base.isEmpty = true
  · have hb : base = [] := by
      cases base with
      | nil => rfl
      | cons x xs => cases hbe
    subst hb
    have hA : rrfCollect ([] : List (Strategy × ℚ)) q docs k = [] := rfl
    rw [hA]
    refine ⟨zs.take k, ?_, fun z hz => hzs0 z ((List.take_prefix _ _).sublist.subset hz)⟩
    have h0 : hybridSearch ([] : List (Strategy × ℚ)) q docs k = [] := rfl
    rw [h0]
    simp [sortDesc]
  · have hne : base.isEmpty = false := by
      revert hbe
      cases base.isEmpty <;> simp
    rw [hybrid_map_outHS base q docs k hne]
    exact ⟨zs.take (k - (sortDesc (fun p : String × ℚ => p.2)
        ((rrfCollect base q docs k).map entryHS)).length), rfl,
      fun z hz => hzs0 z ((List.take_prefix _ _).sublist.subset hz)⟩

theorem score_nonneg_upsert {acc : List HEntry} (hacc : ∀ e ∈ acc, (0 : ℚ) ≤ e.score)
    {δ : ℚ} (hδ : 0 ≤ δ) (h : String) (r : SDoc) (nm : String) :
    ∀ e ∈ rrfUpsert acc h δ r nm, (0 : ℚ) ≤ e.score := by
  intro e he
  rw [rrfUpsert] at he
  by_cases hin : acc.any (fun x => x.href = h) = true
  · rw [if_pos hin] at he
    obtain ⟨e0, he0, heq⟩ := List.mem_map.mp he
    by_cases hh : e0.href = h
    · rw [if_pos hh] at heq
      rw [← heq]
      exact add_nonneg (hacc e0 he0) hδ
    · rw [if_neg hh] at heq
      rw [← heq]
      exact hacc e0 he0
  · rw [if_neg hin] at he
    rcases List.mem_append.mp he with h1 | h2
    · exact hacc e h1
    · rw [List.mem_singleton.mp h2]
      exact hδ

theorem score_nonneg_foldAux {w : ℚ} (hw : 0 ≤ w) (nm : String) :
    ∀ (ps : List (Nat × SDoc)) (acc : List HEntry), (∀ e ∈ acc, (0 : ℚ) ≤ e.score) →
      ∀ e ∈ ps.foldl
          (fun a p => rrfUpsert a p.2.d.href (w / (60 + ((p.1 : ℚ) + 1))) p.2 nm) acc,
        (0 : ℚ) ≤ e.score := by
  intro ps
  induction ps with
  | nil => intro acc hacc; exact hacc
  | cons p ps ih =>
    intro acc hacc
    rw [List.foldl_cons]
    refine ih _ (score_nonneg_upsert hacc ?_ _ p.2 nm)
    have hp : (0 : ℚ) < 60 + ((p.1 : ℚ) + 1) := by positivity
    exact div_nonneg hw (le_of_lt hp)

/-- With nonnegative weights every accumulated Hybrid score is
nonnegative. -/
theorem rrfCollect_score_nonneg (strats : List (Strategy × ℚ)) (q : String)
    (docs : List Doc) (k : Nat) (hw : ∀ sw ∈ strats, (0 : ℚ) ≤ sw.2) :
    ∀ e ∈ rrfCollect strats q docs k, (0 : ℚ) ≤ e.score := by
  suffices h : ∀ (L : List (Strategy × ℚ)), (∀ sw ∈ L, (0 : ℚ) ≤ sw.2) →
      ∀ (acc : List HEntry), (∀ e ∈ acc, (0 : ℚ) ≤ e.score) →
      ∀ e ∈ L.foldl (fun acc sw => rrfProcess acc sw.2 sw.1.sname (sw.1.run q docs (k * 2))) acc,
        (0 : ℚ) ≤ e.score by
    exact h strats hw [] (by intro e he; cases he)
  intro L
  induction L with
  | nil => intro _ acc hacc; exact hacc
  | cons sw L ih =>
    intro hws acc hacc
    rw [List.foldl_cons]
    refine ih (fun x hx => hws x (List.mem_cons_of_mem _ hx)) _ ?_
    exact score_nonneg_foldAux (hws sw (List.mem_cons_self _ _)) sw.1.sname _ acc hacc

/-- Witness for the amended C3 theorem on a concrete configuration. -/
theorem hybrid_weight_zero_appended_witness :
    ∃ zs, ((hybridSearch [(tfidfStrat, 1), (exactStrat, 0)] "zz12" [c3d1, c3d2] 10).map outHS
        = (hybridSearch [(tfidfStrat, 1)] "zz12" [c3d1, c3d2] 10).map outHS ++ zs ∧
      ∀ z ∈ zs, z.2 = (0 : ℚ)) :=
  hybrid_weight_zero_appended [(tfidfStrat, 1)] exactStrat "zz12" [c3d1, c3d2] 10
    (rrfCollect_score_nonneg _ _ _ _
      (by intro sw hsw; rw [List.mem_singleton.mp hsw]; norm_num))

/-- C3 counterexample: corpus of two documents, base Hybrid
configuration of the keyword fallback TFIDF strategy alone (it returns
only the first document), and the exact title strategy appended with
weight 0 (it returns only the second document).  The appended
configuration returns one extra entry with accumulated score 0, so the
ranked result list is not the same. -/
theorem hybrid_weight_zero_counterexample :
    hybridSearch [(tfidfStrat, 1), (exactStrat, 0)] "zz12" [c3d1, c3d2] 10
      ≠ hybridSearch [(tfidfStrat, 1)] "zz12" [c3d1, c3d2] 10 := by
  intro h
  have hlen := congrArg List.length h
  rw [hybridSearch, hybridSearch,
    if_neg (show ¬(([(tfidfStrat, 1), (exactStrat, 0)] :
      List (Strategy × ℚ)).isEmpty = true) by decide),
    if_neg (show ¬(([(tfidfStrat, 1)] : List (Strategy × ℚ)).isEmpty = true) by decide),
    List.length_map, List.length_take, length_sortDesc,
    List.length_map, List.length_take, length_sortDesc] at hlen
  have h2 : (rrfCollect [(tfidfStrat, 1), (exactStrat, 0)] "zz12" [c3d1, c3d2] 10).length
      = 2 := rfl
  have h1 : (rrfCollect [(tfidfStrat, 1)] "zz12" [c3d1, c3d2] 10).length = 1 := rfl
  rw [h2, h1] at hlen
  omega

/-! ### C6 and C10: the document comparators -/

theorem enumFrom_filter_snd {α : Type} (p : α → Bool) :
    ∀ (n : Nat) (l : List α),
      ((List.enumFrom n l).filter (fun x => p x.2)).map (fun x => x.2) = l.filter p := by
  intro n l
  induction l generalizing n with
  | nil => rfl
  | cons a as ih =>
    simp only [List.enumFrom, List.filter_cons]
    by_cases hp : p a
    · simp only [hp, if_true, List.map_cons, ih]
    · simp only [hp, Bool.false_eq_true, if_false, ih]

theorem mem_enumFrom_iff {α : Type} :
    ∀ (n : Nat) (l : List α) (p : Nat × α),
      p ∈ List.enumFrom n l ↔ (n ≤ p.1 ∧ l.get? (p.1 - n) = some p.2) := by
  intro n l
  induction l generalizing n with
  | nil =>
    intro p
    simp [List.enumFrom]
  | cons a as ih =>
    intro p
    simp only [List.enumFrom, List.mem_cons, ih (n + 1)]
    constructor
    · rintro (rfl | ⟨h1, h2⟩)
      · exact ⟨le_refl _, by simp⟩
      · refine ⟨by omega, ?_⟩
        have : p.1 - n = (p.1 - (n + 1)) + 1 := by omega
        rw [this, List.get?_cons_succ]
        exact h2
    · rintro ⟨h1, h2⟩
      by_cases he : p.1 = n
      · left
        rw [he] at h2
        simp only [Nat.sub_self, List.get?_cons_zero, Option.some.injEq] at h2
        obtain ⟨i, x⟩ := p
        simp only at he h2
        rw [he, h2]
      · right
        refine ⟨by omega, ?_⟩
        have : p.1 - n = (p.1 - (n + 1)) + 1 := by omega
        rw [this, List.get?_cons_succ] at h2
        exact h2

theorem mem_simIndices {docs : List Doc} {prev : Finset String} {i : Nat} :
    i ∈ simIndices docs prev ↔ ∃ d, docs.get? i = some d ∧ d.href ∈ prev := by
  rw [simIndices]
  constructor
  · intro h
    obtain ⟨p, hp, rfl⟩ := List.mem_map.mp h
    obtain ⟨hpe, hpc⟩ := List.mem_filter.mp hp
    have := (mem_enumFrom_iff 0 docs p).mp hpe
    refine ⟨p.2, ?_, by simpa using hpc⟩
    simpa using this.2
  · rintro ⟨d, hd, hdp⟩
    refine List.mem_map.mpr ⟨(i, d), List.mem_filter.mpr ⟨?_, by simpa using hdp⟩, rfl⟩
    rw [List.enum, mem_enumFrom_iff]
    simpa using hd

theorem filterMap_eq_map_of_mem {α β : Type} (f : α → Option β) (g : α → β) :
    ∀ l : List α, (∀ a ∈ l, f a = some (g a)) → l.filterMap f = l.map g := by
  intro l
  induction l with
  | nil => intro _; rfl
  | cons a as ih =>
    intro h
    rw [List.filterMap_cons, h a (List.mem_cons_self _ _), List.map_cons,
      ih (fun x hx => h x (List.mem_cons_of_mem _ hx))]

theorem find_similar_fst (docs : List Doc) (prev : Finset String) :
    (find_similar docs prev).1 = docs.filter (fun d => decide (d.href ∉ prev)) := by
  rw [find_similar]
  have hcongr : (docs.enum.filter (fun p => decide (p.1 ∉ simIndices docs prev)))
      = docs.enum.filter (fun p => decide (p.2.href ∉ prev)) := by
    refine List.filter_congr ?_
    intro p hp
    have hmem := (mem_enumFrom_iff 0 docs p).mp (by simpa [List.enum] using hp)
    have hiff : p.1 ∈ simIndices docs prev ↔ p.2.href ∈ prev := by
      rw [mem_simIndices]
      constructor
      · rintro ⟨d, hd, hdp⟩
        rw [show docs.get? p.1 = docs.get? (p.1 - 0) by rw [Nat.sub_zero], hmem.2] at hd
        rw [← Option.some.inj hd] at hdp
        exact hdp
      · intro h
        exact ⟨p.2, by simpa using hmem.2, h⟩
    simp only [decide_eq_decide]
    exact not_congr hiff
  rw [hcongr]
  show (docs.enum.filter (fun p => decide (p.2.href ∉ prev))).map (fun p => p.2)
      = docs.filter (fun d => decide (d.href ∉ prev))
  rw [List.enum]
  exact enumFrom_filter_snd (fun d => decide (d.href ∉ prev)) 0 docs

theorem find_similar_snd (docs : List Doc) (prev : Finset String) :
    (find_similar docs prev).2 = docs.filter (fun d => decide (d.href ∈ prev)) := by
  rw [find_similar]
  show (simIndices docs prev).filterMap (fun i => docs.get? i)
      = docs.filter (fun d => decide (d.href ∈ prev))
  rw [simIndices, List.filterMap_map]
  have hstep : (docs.enum.filter (fun p => decide (p.2.href ∈ prev))).filterMap
        ((fun i => docs.get? i) ∘ (fun p : Nat × Doc => p.1))
      = (docs.enum.filter (fun p => decide (p.2.href ∈ prev))).map (fun p => p.2) := by
    refine filterMap_eq_map_of_mem _ _ _ ?_
    intro p hp
    have hmem := (mem_enumFrom_iff 0 docs p).mp
      (by simpa [List.enum] using (List.mem_filter.mp hp).1)
    simpa using hmem.2
  rw [hstep]
  rw [List.enum]
  exact enumFrom_filter_snd (fun d => decide (d.href ∈ prev)) 0 docs

theorem count_filter_split {α : Type} [DecidableEq α] (p : α → Bool) (d : α) :
    ∀ l : List α, (l.filter (fun x => !p x)).count d + (l.filter p).count d = l.count d := by
  intro l
  induction l with
  | nil => rfl
  | cons a as ih =>
    rw [List.count_cons, List.filter_cons, List.filter_cons]
    by_cases hp : p a
    · rw [if_neg (show ¬((!p a) = true) by simp [hp]), if_pos hp, List.count_cons]
      omega
    · rw [if_pos (show (!p a) = true by simp [hp]), if_neg hp, List.count_cons]
      omega

/-- C6: DocumentComparator.find_similar partitions its input: the first
component is exactly the documents whose href is outside the previous
set, the second exactly those inside, the two are disjoint, and together
they carry every input document with its multiplicity. -/
theorem find_similar_partition (docs : List Doc) (prev : Finset String) :
    (find_similar docs prev).1 = docs.filter (fun d => decide (d.href ∉ prev)) ∧
    (find_similar docs prev).2 = docs.filter (fun d => decide (d.href ∈ prev)) ∧
    (∀ d ∈ (find_similar docs prev).1, d ∉ (find_similar docs prev).2) ∧
    (∀ d : Doc, (find_similar docs prev).1.count d + (find_similar docs prev).2.count d
      = docs.count d) := by
  refine ⟨find_similar_fst docs prev, find_similar_snd docs prev, ?_, ?_⟩
  · intro d hd hmem
    rw [find_similar_fst] at hd
    rw [find_similar_snd] at hmem
    have h1 := (List.mem_filter.mp hd).2
    have h2 := (List.mem_filter.mp hmem).2
    simp only [decide_eq_true_eq] at h1 h2
    exact h1 h2
  · intro d
    rw [find_similar_fst, find_similar_snd]
    have := count_filter_split (fun x : Doc => decide (x.href ∈ prev)) d docs
    simpa using this

/-- C10: the fuzzy comparator and the exact comparator return the same
partition for every document list and previous href set: the fuzzy title
branch of the source never fires, so exact href membership alone
decides.  Documents carry an href field by construction of the model. -/
theorem fuzzy_find_similar_eq_find_similar (docs : List Doc) (prev : Finset String) :
    fuzzy_find_similar docs prev = find_similar docs prev := by
  have hfold : ∀ (l : List Doc) (a b : List Doc),
      l.foldl (fun acc d =>
          if d.href ∈ prev then (acc.1, acc.2 ++ [d]) else (acc.1 ++ [d], acc.2)) (a, b)
        = (a ++ l.filter (fun d => decide (d.href ∉ prev)),
           b ++ l.filter (fun d => decide (d.href ∈ prev))) := by
    intro l
    induction l with
    | nil => intro a b; simp
    | cons x xs ih =>
      intro a b
      rw [List.foldl_cons, List.filter_cons, List.filter_cons]
      by_cases hx : x.href ∈ prev
      · rw [if_pos hx]
        simp [hx, ih, List.append_assoc]
      · rw [if_neg hx]
        simp [hx, ih, List.append_assoc]
  rw [fuzzy_find_similar, hfold docs [] [], List.nil_append, List.nil_append]
  refine Prod.ext ?_ ?_
  · rw [find_similar_fst]
  · rw [find_similar_snd]

/-! ### C9: previous hrefs of a session -/

theorem history_applySearches :
    ∀ (xs : List (String × List Doc × Nat)) (s : ConversationSession),
      (xs.foldl (fun s x => add_search s x.1 x.2.1 x.2.2) s).search_history
        = s.search_history ++ xs.map entryOf := by
  intro xs
  induction xs with
  | nil => intro s; simp
  | cons x xs ih =>
    intro s
    rw [List.foldl_cons, ih, List.map_cons]
    show (add_search s x.1 x.2.1 x.2.2).search_history ++ xs.map entryOf
      = s.search_history ++ (entryOf x :: xs.map entryOf)
    rw [add_search]
    simp [entryOf, List.append_assoc]

theorem mem_foldl_insert_records (rs : List SearchRecord) :
    ∀ (acc : Finset String) (h : String),
      h ∈ rs.foldl (fun a r => insert r.href a) acc ↔ h ∈ acc ∨ ∃ r ∈ rs, r.href = h := by
  induction rs with
  | nil => intro acc h; simp
  | cons r rs ih =>
    intro acc h
    rw [List.foldl_cons, ih]
    simp only [Finset.mem_insert, List.mem_cons]
    constructor
    · rintro ((rfl | hacc) | ⟨x, hx, rfl⟩)
      · exact Or.inr ⟨r, Or.inl rfl, rfl⟩
      · exact Or.inl hacc
      · exact Or.inr ⟨x, Or.inr hx, rfl⟩
    · rintro (hacc | ⟨x, (rfl | hx), rfl⟩)
      · exact Or.inl (Or.inr hacc)
      · exact Or.inl (Or.inl rfl)
      · exact Or.inr ⟨x, hx, rfl⟩

theorem mem_foldl_insert_entries (es : List HistoryEntry) :
    ∀ (acc : Finset String) (h : String),
      h ∈ es.foldl (fun acc e => e.results.foldl (fun a r => insert r.href a) acc) acc ↔
        h ∈ acc ∨ ∃ e ∈ es, ∃ r ∈ e.results, r.href = h := by
  induction es with
  | nil => intro acc h; simp
  | cons e es ih =>
    intro acc h
    rw [List.foldl_cons, ih, mem_foldl_insert_records]
    simp only [List.mem_cons]
    constructor
    · rintro ((hacc | ⟨r, hr, rfl⟩) | ⟨x, hx, r, hr, rfl⟩)
      · exact Or.inl hacc
      · exact Or.inr ⟨e, Or.inl rfl, r, hr, rfl⟩
      · exact Or.inr ⟨x, Or.inr hx, r, hr, rfl⟩
    · rintro (hacc | ⟨x, (rfl | hx), r, hr, rfl⟩)
      · exact Or.inl (Or.inl hacc)
      · exact Or.inl (Or.inr ⟨r, hr, rfl⟩)
      · exact Or.inr ⟨x, hx, r, hr, rfl⟩

/-- C9: for a session built by n add_search calls, get_previous_hrefs is
exactly the union of the hrefs of the first n - 1 recorded searches (the
history minus its most recent entry); with exactly one recorded search
it is empty. -/
theorem get_previous_hrefs_spec (sid : String) (xs : List (String × List Doc × Nat)) :
    (∀ h, h ∈ get_previous_hrefs (applySearches sid xs) ↔
      ∃ x ∈ xs.dropLast, ∃ d ∈ x.2.1, d.href = h) ∧
    (xs.length = 1 → get_previous_hrefs (applySearches sid xs) = ∅) := by
  have hh : (applySearches sid xs).search_history = xs.map entryOf := by
    rw [applySearches, history_applySearches]
    rfl
  constructor
  · intro h
    rw [get_previous_hrefs, hh, ← List.map_dropLast, mem_foldl_insert_entries]
    simp only [Finset.not_mem_empty, false_or, List.mem_map]
    constructor
    · rintro ⟨e, ⟨x, hx, rfl⟩, r, hr, rfl⟩
      obtain ⟨d, hd, rfl⟩ := List.mem_map.mp hr
      exact ⟨x, hx, d, hd, rfl⟩
    · rintro ⟨x, hx, d, hd, rfl⟩
      exact ⟨entryOf x, ⟨x, hx, rfl⟩, recordOf d, List.mem_map_of_mem _ hd, rfl⟩
  · intro hlen
    obtain ⟨a, rfl⟩ := List.length_eq_one.mp hlen
    rw [get_previous_hrefs, hh]
    rfl

/-- Witness for C9 with exactly one recorded search. -/
theorem get_previous_hrefs_spec_witness :
    get_previous_hrefs (applySearches "s1" [("carta", [c1Doc], 0)]) = ∅ :=
  (get_previous_hrefs_spec "s1" [("carta", [c1Doc], 0)]).2 rfl

/-! ### C5: intention detection precedence -/

/-- C5: IntentionDetector.detect classifies with the precedence
unsatisfied patterns, then satisfied patterns, then refinement exactly
when entity extraction reports new information, then the unsatisfied
default; stated over any injected pattern table, with the match running
on the lowered stripped message as in the source. -/
theorem detect_precedence (ps : IntentPatterns) (m : String) :
    (ps.unsatisfied.any (fun p => p (pyStrip (pyLower m))) = true →
      detect ps m = "unsatisfied") ∧
    (ps.unsatisfied.any (fun p => p (pyStrip (pyLower m))) = false →
      ps.satisfied.any (fun p => p (pyStrip (pyLower m))) = true →
      detect ps m = "satisfied") ∧
    (ps.unsatisfied.any (fun p => p (pyStrip (pyLower m))) = false →
      ps.satisfied.any (fun p => p (pyStrip (pyLower m))) = false →
      (detect ps m = "refinement" ↔ (entityExtract m).has_new_info = true)) ∧
    (ps.unsatisfied.any (fun p => p (pyStrip (pyLower m))) = false →
      ps.satisfied.any (fun p => p (pyStrip (pyLower m))) = false →
      (entityExtract m).has_new_info = false → detect ps m = "unsatisfied") := by
  refine ⟨?_, ?_, ?_, ?_⟩
  · intro h1
    rw [detect, if_pos h1]
  · intro h1 h2
    rw [detect, if_neg (by rw [h1]; exact Bool.false_ne_true), if_pos h2]
  · intro h1 h2
    rw [detect, if_neg (by rw [h1]; exact Bool.false_ne_true),
      if_neg (by rw [h2]; exact Bool.false_ne_true)]
    constructor
    · intro h3
      by_cases hn : (entityExtract m).has_new_info = true
      · exact hn
      · rw [if_neg hn] at h3
        exact absurd h3 (by decide)
    · intro h3
      rw [if_pos h3]
  · intro h1 h2 h3
    rw [detect, if_neg (by rw [h1]; exact Bool.false_ne_true),
      if_neg (by rw [h2]; exact Bool.false_ne_true),
      if_neg (by rw [h3]; exact Bool.false_ne_true)]

/-- Witness for C5: with a concrete pattern table, a gratitude message
matching only the satisfied group is classified satisfied. -/
theorem detect_precedence_witness : detect cPatterns "Gracias" = "satisfied" :=
  (detect_precedence cPatterns "Gracias").2.1 (by decide) (by decide)

/-! ### C4: explicit ranges versus the period table -/

/-- C4 counterexample: in a message carrying both the explicit range
entre 1980 y 1985 and the period word dictadura, the explicit range is
matched, yet the reported date_range is the period resolution 1973 to
1990, not the explicit pair: the period loop of the source overwrites
date_range unconditionally. -/
theorem dateRange_claim_counterexample :
    rangeSearch (pyLower "entre 1980 y 1985 dictadura").data = some (1980, 1985) ∧
    (dateRangeExtract "entre 1980 y 1985 dictadura").date_range = some (1973, 1990) ∧
    (dateRangeExtract "entre 1980 y 1985 dictadura").date_range ≠ some (1980, 1985) := by
  refine ⟨by decide, by decide, by decide⟩

/-- C4 (amended): when a message matches both the explicit entre X y Y
range (with X at most Y) and a period of the table, and no decade
pattern matches, the explicit range survives only in the years list
(X up to Y); date_range and period_name report the first matching
period of the table, overriding the explicit pair. -/
theorem dateRange_period_overwrites (m : String) (x y s e : Nat) (p : String)
    (hxy : x ≤ y)
    (hr : rangeSearch (pyLower m).data = some (x, y))
    (hp : findPeriod (pyLower m).data = some (p, (s, e)))
    (hd1 : decade1Search (pyLower m).data = none)
    (hd2 : decade2Search (pyLower m).data = none) :
    (dateRangeExtract m).date_range = some (s, e) ∧
    (dateRangeExtract m).period_name = some p ∧
    (dateRangeExtract m).years = List.range' x (y + 1 - x) := by
  have hs1 : dreRange (pyLower m).data = (List.range' x (y + 1 - x), some (x, y)) := by
    rw [dreRange, hr]
  have hne : (List.range' x (y + 1 - x)).isEmpty = false := by
    obtain ⟨k, hk⟩ : ∃ k, y + 1 - x = k + 1 := ⟨y - x, by omega⟩
    rw [hk]
    rfl
  have hs2 : drePeriod (pyLower m).data (List.range' x (y + 1 - x)) (some (x, y))
      = (List.range' x (y + 1 - x), some (s, e), some p) := by
    rw [drePeriod, hp]
    dsimp only
    rw [hne]
    simp only [Bool.false_eq_true, if_false]
  have hs3 : dreDecade (pyLower m).data (List.range' x (y + 1 - x)) (some (s, e))
      = (List.range' x (y + 1 - x), some (s, e)) := by
    rw [dreDecade, hd1, hd2]
  have hall : dateRangeExtract m
      = ⟨List.range' x (y + 1 - x), [], [],
         !(List.range' x (y + 1 - x)).isEmpty || (some (s, e) : Option (Nat × Nat)).isSome,
         some (s, e), some p⟩ := by
    rw [dateRangeExtract]
    rw [hs1]
    dsimp only
    rw [hs2]
    rw [hs3]
  rw [hall]
  exact ⟨rfl, rfl, rfl⟩

/-- Witness for the amended C4 theorem at a concrete message. -/
theorem dateRange_period_overwrites_witness :
    (dateRangeExtract "entre 1980 y 1985 dictadura").date_range = some (1973, 1990) ∧
    (dateRangeExtract "entre 1980 y 1985 dictadura").period_name = some "dictadura" ∧
    (dateRangeExtract "entre 1980 y 1985 dictadura").years
      = List.range' 1980 (1985 + 1 - 1980) :=
  dateRange_period_overwrites "entre 1980 y 1985 dictadura" 1980 1985 1973 1990 "dictadura"
    (by decide) (by decide) (by decide) (by decide) (by decide)

end UAH
